import Mathlib

/-!
Verification of the reminder-scheduler subsystem of the VocabAI repository:
the in-process event bus (src/bot/utils/event_manager.py) and the reminder
job lifecycle manager (src/bot/services/reminder_service.py), translated
into a shallow embedding.

Modelling conventions used throughout this file:
* Python dictionaries are association lists whose key uniqueness is either
  maintained by the operations (insertKey replaces) or carried as an
  explicit hypothesis.
* Dates in the YYYY-MM-DD string format used by the code compare
  lexicographically, which coincides with chronological order, so a due
  date is represented by a natural number and the string comparison
  next_review <= current_date becomes a comparison of naturals.  A missing
  or empty (falsy) next_review field is represented by Option.none.
* Wall-clock instants returned by time.time() are represented by naturals.
* Exceptions that the source catches locally are modelled by the state the
  code leaves behind on that path; functions that can observably fail
  return Option or carry an explicit error constructor.
* The cooperative asyncio execution of the dispatch loop is modelled by a
  labelled transition system; interleaving of the concurrently running
  callback tasks of one event is the nondeterministic choice of which
  pending callback runs next.
-/

/-- Event kinds, from the EventType enum in bot/utils/event_manager.py. -/
inductive EventType
| user_settings_updated
| reminder_settings_changed
| user_registered
| user_deleted
deriving DecidableEq, Repr

/-- Values stored in the payload dictionary of an event (the dict carries
booleans, strings and None in this subsystem). -/
inductive PVal
| pbool (b : Bool)
| pstr (s : String)
| pnone
deriving DecidableEq, Repr

/-- Python truthiness of a payload value: False, empty string and None are
falsy, everything else is truthy. -/
def PVal.truthy : PVal → Bool
| .pbool b => b
| .pstr s => s ≠ ""
| .pnone => false

/-- Lookup in an association list: the model of reading a Python dict. -/
def lookupKey {α β : Type} [DecidableEq α] : List (α × β) → α → Option β
| [], _ => none
| (k, v) :: rest, a => if k = a then some v else lookupKey rest a

/-- Membership test on the keys of an association list, the model of the
Python expression "key in dict". -/
def containsKey {α β : Type} [DecidableEq α] (l : List (α × β)) (a : α) : Bool :=
  (lookupKey l a).isSome

/-- Assignment dict[key] = value: replace the binding in place when the key
exists, otherwise append it. -/
def insertKey {α β : Type} [DecidableEq α] : List (α × β) → α → β → List (α × β)
| [], a, b => [(a, b)]
| (k, v) :: rest, a, b => if k = a then (a, b) :: rest else (k, v) :: insertKey rest a b

/-- Deletion del dict[key]: drop the binding of the key. -/
def eraseKey {α β : Type} [DecidableEq α] : List (α × β) → α → List (α × β)
| [], _ => []
| (k, v) :: rest, a => if k = a then rest else (k, v) :: eraseKey rest a

/-- Payload dictionary of an event. -/
abbrev PDict := List (String × PVal)

/-- dict.get(key, default) on a payload dictionary. -/
def dictGet (d : PDict) (key : String) (dflt : PVal) : PVal :=
  (lookupKey d key).getD dflt

/-- Event dataclass from bot/utils/event_manager.py: kind, user id,
optional payload dictionary and optional timestamp. -/
structure Event where
  event_type : EventType
  user_id : Int
  data : Option PDict
  timestamp : Option Nat
deriving DecidableEq, Repr

/-- The dataclass hook Event.__post_init__, evaluated when the event object
is constructed at wall-clock instant now: a missing timestamp is filled in
with the current time; an explicitly supplied timestamp is kept. -/
def Event.postInit (now : Nat) (e : Event) : Event :=
  match e.timestamp with
  | none => { e with timestamp := some now }
  | some _ => e

/-- EventManager.publish: enqueue the event at the tail of the FIFO queue.
The method only calls queue.put; it does not modify the event, in
particular it does not touch the timestamp field. -/
def publish (e : Event) (q : List Event) : List Event :=
  q ++ [e]

/-- Convenience publisher publish_reminder_settings_changed: builds the
event (whose __post_init__ stamps the construction instant now) with the
payload dictionary holding reminder_enabled and reminder_time, then
publishes it. -/
def publish_reminder_settings_changed (now : Nat) (u : Int) (enabled : Bool)
    (rt : Option String) (q : List Event) : List Event :=
  publish (Event.postInit now
    { event_type := .reminder_settings_changed
      user_id := u
      data := some [("reminder_enabled", .pbool enabled),
                    ("reminder_time", (rt.map PVal.pstr).getD .pnone)]
      timestamp := none }) q

/-- Learning preferences sub-dictionary of a user settings row, with the
three keys this subsystem reads.  Option.none models a missing key. -/
structure LearningPrefs where
  daily_review_target : Option Nat
  review_reminder_enabled : Option Bool
  review_reminder_time : Option String
deriving DecidableEq, Repr

instance : Inhabited LearningPrefs := ⟨⟨none, none, none⟩⟩

/-- User settings row as returned by get_user_settings: the code only ever
reads the learning_preferences sub-dictionary (with an empty-dict
default). -/
structure UserSettings where
  learning_preferences : Option LearningPrefs
deriving DecidableEq, Repr

/-- Outcome of the external call get_user_settings: the row (absent when
the user never configured settings), or a raised storage error. -/
inductive SettingsFetch
| ok (s : Option UserSettings)
| err
deriving DecidableEq, Repr

/-- Vocabulary row as returned by get_words_for_user, restricted to the
fields that get_due_words_for_user reads.  A falsy next_review (missing
key, None or empty string) is Option.none. -/
structure WordData where
  word : String
  next_review : Option Nat
  interval : Option Int
  difficulty : Option Int
deriving DecidableEq, Repr

/-- Entry appended to due_words in get_due_words_for_user. -/
structure DueWord where
  word : String
  next_review : Nat
  interval : Int
  difficulty : Int
deriving DecidableEq, Repr

/-- Filtering loop of get_due_words_for_user: keep exactly the rows with a
truthy next_review that is at most the current date, with the dict.get
defaults interval 1 and difficulty 0. -/
def filterDue (vocab : List WordData) (today : Nat) : List DueWord :=
  vocab.filterMap (fun w =>
    match w.next_review with
    | some nr =>
      if nr ≤ today then
        some ⟨w.word, nr, w.interval.getD 1, w.difficulty.getD 0⟩
      else none
    | none => none)

/-- Comparison used by due_words.sort(key=lambda x: x[next_review]). -/
def dueLe (a b : DueWord) : Prop := a.next_review ≤ b.next_review

instance : DecidableRel dueLe := fun a b => Nat.decLe a.next_review b.next_review

instance : IsTotal DueWord dueLe := ⟨fun a b => Nat.le_total a.next_review b.next_review⟩

instance : IsTrans DueWord dueLe := ⟨fun _ _ _ h1 h2 => Nat.le_trans h1 h2⟩

/-- In-place stable ascending sort of the due list by next_review (the
Python list sort is stable; any stable sort gives the same list, and the
claims under scrutiny only use sortedness and permutation). -/
def sortDue (l : List DueWord) : List DueWord :=
  l.insertionSort dueLe

/-- Daily review target resolution inside get_due_words_for_user on the
path where get_user_settings returned without raising: a falsy settings
row gives the default 10, and a present row is read with
settings.get(learning_preferences, empty).get(daily_review_target, 10). -/
def dailyTargetOf (s : Option UserSettings) : Nat :=
  match s with
  | some st => ((st.learning_preferences.getD default).daily_review_target).getD 10
  | none => 10

/-- ReminderService.get_due_words_for_user, lines 176-222: filter the due
rows, sort ascending by next_review, then cap the list: when the settings
lookup succeeds the cap is min(daily_target, 20); when it raises the
except branch returns the first 10 entries. -/
def get_due_words_for_user (vocab : List WordData) (today : Nat)
    (fetch : SettingsFetch) : List DueWord :=
  let due := sortDue (filterDue vocab today)
  match fetch with
  | .ok s => due.take (min (dailyTargetOf s) 20)
  | .err => due.take 10

/-- Character-level model of the Python int() call applied to one colon
separated chunk: the digit value of a decimal character, if any. -/
def digitVal (c : Char) : Option Nat :=
  if 48 ≤ c.toNat ∧ c.toNat ≤ 57 then some (c.toNat - 48) else none

/-- Decimal value of a nonempty all-digit character list; none when the
list is empty or holds a non-digit, mirroring int() raising ValueError. -/
def digitsToNat : List Char → Option Nat
| [] => none
| cs => cs.foldl (fun acc c =>
    match acc, digitVal c with
    | some a, some d => some (a * 10 + d)
    | _, _ => none) (some 0)

/-- Model of int(chunk) for a chunk of the reminder time string: an
optional leading minus sign followed by decimal digits. -/
def parseIntChunk (cs : List Char) : Option Int :=
  match cs with
  | '-' :: rest => (digitsToNat rest).map (fun n => -(n : Int))
  | _ => (digitsToNat cs).map (fun n => (n : Int))

/-- Model of str.split applied to the character list of the time string
with the separator colon: splitting never returns an empty list. -/
def splitColon : List Char → List (List Char)
| [] => [[]]
| c :: rest =>
  if c = ':' then [] :: splitColon rest
  else
    match splitColon rest with
    | [] => [[c]]
    | g :: gs => (c :: g) :: gs

/-- The parsing line of setup_user_reminder, hour, minute = map(int,
reminder_time.split(colon)): it succeeds exactly when the split yields two
chunks and both parse as integers; any other shape raises (unpacking or
ValueError), which the surrounding try block catches. -/
def parseHHMM (t : String) : Option (Int × Int) :=
  match splitColon t.toList with
  | [h, m] =>
    match parseIntChunk h, parseIntChunk m with
    | some a, some b => some (a, b)
    | _, _ => none
  | _ => none

/-- Validity check performed by the CronTrigger constructor: an hour
outside 0..23 or a minute outside 0..59 raises ValueError, which the
surrounding try block of setup_user_reminder catches. -/
def validTrigger (h m : Int) : Bool :=
  0 ≤ h ∧ h ≤ 23 ∧ 0 ≤ m ∧ m ≤ 59

/-- Recurring cron trigger registered with the scheduler (timezone is the
constant Asia/Taipei and is omitted). -/
structure Trigger where
  hour : Int
  minute : Int
deriving DecidableEq, Repr

/-- In-memory state of ReminderService: the active_jobs dict mapping
user_id to job_id, and the job table of the AsyncIOScheduler mapping
job_id to its trigger. -/
structure RSState where
  active_jobs : List (Int × String)
  sched : List (String × Trigger)
deriving DecidableEq, Repr

/-- Fresh-process state: no scheduler jobs, empty active_jobs dict. -/
def initRS : RSState := ⟨[], []⟩

/-- The deterministic job id f"reminder_{user_id}". -/
def jobId (u : Int) : String := "reminder_" ++ toString u

/-- get_reminder_status field has_reminder: user_id in self.active_jobs. -/
def hasJob (s : RSState) (u : Int) : Bool :=
  containsKey s.active_jobs u

/-- ReminderService.remove_user_reminder, lines 134-144: when the user has
an entry in active_jobs, scheduler.remove_job(job_id) is attempted.
APScheduler raises JobLookupError when the id is not present, in which
case the del statement is skipped and the exception is caught, leaving the
state unchanged; on success both the scheduler job and the dict entry are
removed.  A user without an entry is a no-op. -/
def remove_user_reminder (s : RSState) (u : Int) : RSState :=
  match lookupKey s.active_jobs u with
  | none => s
  | some jid =>
    if containsKey s.sched jid then
      { active_jobs := eraseKey s.active_jobs u, sched := eraseKey s.sched jid }
    else s

/-- ReminderService.setup_user_reminder, lines 95-132: first remove any
existing job for the user, then parse the time; on parse failure or an
out-of-range trigger the raised exception is caught by the enclosing try
block, so the removal is kept but nothing is installed.  Otherwise
add_job(id=job_id, replace_existing=True) registers the trigger under the
deterministic job id and active_jobs[user_id] = job_id is recorded. -/
def setup_user_reminder (s : RSState) (u : Int) (reminder_time : String) : RSState :=
  let s1 := remove_user_reminder s u
  match parseHHMM reminder_time with
  | none => s1
  | some (h, m) =>
    if validTrigger h m then
      { active_jobs := insertKey s1.active_jobs u (jobId u)
        sched := insertKey s1.sched (jobId u) ⟨h, m⟩ }
    else s1

/-- ReminderService.update_user_reminder_settings, lines 336-364: read the
settings row (one storage read); a raised error is caught and leaves the
state unchanged, an absent row or a disabled flag removes the job, an
enabled flag installs with the persisted time defaulting to 09:00.  The
second component counts get_user_settings calls. -/
def update_user_reminder_settings (stg : Int → SettingsFetch) (s : RSState)
    (u : Int) : RSState × Nat :=
  match stg u with
  | .err => (s, 1)
  | .ok none => (remove_user_reminder s u, 1)
  | .ok (some st) =>
    let prefs := st.learning_preferences.getD default
    if prefs.review_reminder_enabled.getD false then
      (setup_user_reminder s u (prefs.review_reminder_time.getD "09:00"), 1)
    else
      (remove_user_reminder s u, 1)

/-- ReminderService._handle_reminder_settings_changed, lines 393-421: read
the payload with data = event.data or empty and dict.get defaults; a falsy
reminder_enabled removes the job immediately, a truthy reminder_time
string installs directly with it, a truthy non-string reaches the split
call inside setup_user_reminder and aborts it after the removal, and a
falsy reminder_time falls back to update_user_reminder_settings.  The
second component counts get_user_settings storage reads. -/
def handle_reminder_settings_changed (stg : Int → SettingsFetch) (s : RSState)
    (e : Event) : RSState × Nat :=
  let d := e.data.getD []
  let enabled := (dictGet d "reminder_enabled" (.pbool false)).truthy
  if enabled then
    match dictGet d "reminder_time" .pnone with
    | .pstr t =>
      if t ≠ "" then (setup_user_reminder s e.user_id t, 0)
      else update_user_reminder_settings stg s e.user_id
    | .pbool b =>
      if b then (remove_user_reminder s e.user_id, 0)
      else update_user_reminder_settings stg s e.user_id
    | .pnone => update_user_reminder_settings stg s e.user_id
  else
    (remove_user_reminder s e.user_id, 0)

/-- ReminderService._handle_user_settings_updated, lines 378-391: the
handler re-reads persisted settings through
update_user_reminder_settings. -/
def handle_user_settings_updated (stg : Int → SettingsFetch) (s : RSState)
    (e : Event) : RSState × Nat :=
  update_user_reminder_settings stg s e.user_id

/-- ReminderService.initialize_user_reminders, lines 67-93: iterate over
the storage rows of users with enabled reminders and run
setup_user_reminder for each; a per-user failure is caught both inside
setup_user_reminder and by the per-user try block, so iteration always
continues with the remaining users. -/
def init_user_reminders (users : List (Int × String)) (s : RSState) : RSState :=
  users.foldl (fun acc ut => setup_user_reminder acc ut.1 ut.2) s

/-- Registry mutations reachable through the public lifecycle surface:
install (or replace) a job for a user, and remove the job of a user. -/
inductive ROp
| setup (u : Int) (reminder_time : String)
| remove (u : Int)
deriving DecidableEq, Repr

/-- Apply one registry mutation. -/
def applyROp (s : RSState) : ROp → RSState
| .setup u t => setup_user_reminder s u t
| .remove u => remove_user_reminder s u

/-- Apply a sequence of registry mutations starting from a state. -/
def runROps (s : RSState) (ops : List ROp) : RSState :=
  ops.foldl applyROp s

/-- Subscriber callback: an async function receiving the event; its
outcome is either normal completion or a raised exception (carried as a
message), which asyncio.gather(return_exceptions=True) turns into a
value. -/
abbrev Cb := Event → Except String Unit

/-- Result of running callback number k of the subscriber list of the kind
of event e, as collected by gather in _handle_event. -/
def runCallback (subs : EventType → List Cb) (e : Event) (k : Nat) : Except String Unit :=
  match (subs e.event_type).get? k with
  | some cb => cb e
  | none => .ok ()

/-- Control point of the _process_events loop task: at the while check, or
suspended in queue.get, or fanned out on the event dequeued with index
idx, with the set of not yet completed callback indices, or exited. -/
inductive LoopPhase
| check
| waiting
| handling (idx : Nat) (e : Event) (todo : List Nat)
| stopped
deriving DecidableEq, Repr

/-- State of the EventManager object together with its running dispatch
loop task: the FIFO queue entries (each stamped with its arrival index,
None being the stop sentinel), the arrival counter, the _running flag and
the loop control point. -/
structure EMState where
  queue : List (Nat × Option Event)
  nextIdx : Nat
  running : Bool
  phase : LoopPhase
deriving DecidableEq, Repr

/-- State in which start() has just created the dispatch loop task. -/
def initEM : EMState := ⟨[], 0, true, .check⟩

instance : DecidableEq (Except String Unit) := fun a b =>
  match a, b with
  | .ok (), .ok () => isTrue rfl
  | .error s, .error t =>
    if h : s = t then isTrue (by rw [h]) else isFalse (fun hc => by injection hc; exact h (by assumption))
  | .ok (), .error _ => isFalse (fun hc => Except.noConfusion hc)
  | .error _, .ok () => isFalse (fun hc => Except.noConfusion hc)

/-- Observable transition labels of the event manager system.  The run
label records the atomic execution of one spawned callback task (its
start, body and completion); interleavings of distinct callback tasks of
one batch differ only in the order of their run labels. -/
inductive Lab
| pub (i : Nat) (e : Event)
| stopCall (i : Nat)
| enterGet
| exitWhile
| deq (i : Nat) (e : Event)
| deqStop (i : Nat)
| run (i : Nat) (k : Nat) (r : Except String Unit)
| fin (i : Nat)
deriving DecidableEq, Repr

/-- Small-step transition relation of the event manager under a fixed
subscriber registry.  publish appends to the queue from any context;
stop() atomically clears _running and appends the None sentinel (both its
statements run without an intervening suspension point on an unbounded
queue); the loop exits at the while check once _running is false, or upon
dequeuing the sentinel; dequeuing an event spawns one task per subscriber
of its kind, the tasks run in any order, and only after all of them have
completed does gather return and the loop advance. -/
inductive EMStep (subs : EventType → List Cb) : EMState → Lab → EMState → Prop
| pub (s : EMState) (e : Event) :
    EMStep subs s (.pub s.nextIdx e)
      ⟨s.queue ++ [(s.nextIdx, some e)], s.nextIdx + 1, s.running, s.phase⟩
| stop (s : EMState) (h : s.running = true) :
    EMStep subs s (.stopCall s.nextIdx)
      ⟨s.queue ++ [(s.nextIdx, none)], s.nextIdx + 1, false, s.phase⟩
| exitW (s : EMState) (h1 : s.phase = .check) (h2 : s.running = false) :
    EMStep subs s .exitWhile ⟨s.queue, s.nextIdx, s.running, .stopped⟩
| enter (s : EMState) (h1 : s.phase = .check) (h2 : s.running = true) :
    EMStep subs s .enterGet ⟨s.queue, s.nextIdx, s.running, .waiting⟩
| deqE (s : EMState) (i : Nat) (e : Event) (rest : List (Nat × Option Event))
    (h1 : s.phase = .waiting) (h2 : s.queue = (i, some e) :: rest) :
    EMStep subs s (.deq i e)
      ⟨rest, s.nextIdx, s.running, .handling i e (List.range (subs e.event_type).length)⟩
| deqS (s : EMState) (i : Nat) (rest : List (Nat × Option Event))
    (h1 : s.phase = .waiting) (h2 : s.queue = (i, none) :: rest) :
    EMStep subs s (.deqStop i) ⟨rest, s.nextIdx, s.running, .stopped⟩
| runCb (s : EMState) (i : Nat) (e : Event) (todo : List Nat) (k : Nat)
    (h1 : s.phase = .handling i e todo) (hk : k ∈ todo) :
    EMStep subs s (.run i k (runCallback subs e k))
      ⟨s.queue, s.nextIdx, s.running, .handling i e (todo.erase k)⟩
| finB (s : EMState) (i : Nat) (e : Event)
    (h1 : s.phase = .handling i e []) :
    EMStep subs s (.fin i) ⟨s.queue, s.nextIdx, s.running, .check⟩

/-- Executions of the event manager: the trace of labels produced by some
interleaving, together with the state reached. -/
inductive EMExec (subs : EventType → List Cb) : List Lab → EMState → Prop
| init : EMExec subs [] initEM
| snoc {tr : List Lab} {s : EMState} {l : Lab} {s' : EMState} :
    EMExec subs tr s → EMStep subs s l s' → EMExec subs (tr ++ [l]) s'

/-- Queue entry enqueued by a label, if any: events from publish and the
None sentinel from stop(). -/
def enqItem : Lab → Option (Nat × Option Event)
| .pub i e => some (i, some e)
| .stopCall i => some (i, none)
| _ => none

/-- Queue entry dequeued by a label, if any. -/
def deqItem : Lab → Option (Nat × Option Event)
| .deq i e => some (i, some e)
| .deqStop i => some (i, none)
| _ => none

/-- Arrival sequence of a trace: the queue entries in the order they were
put. -/
def enqs (tr : List Lab) : List (Nat × Option Event) :=
  tr.filterMap enqItem

/-- Dequeue sequence of a trace: the queue entries in the order the loop
pulled them. -/
def deqs (tr : List Lab) : List (Nat × Option Event) :=
  tr.filterMap deqItem

/-- Every subscriber callback of the kind of the event with arrival index
i has completed somewhere in the trace. -/
def ranAll (subs : EventType → List Cb) (tr : List Lab) (i : Nat) (e : Event) : Prop :=
  ∀ k, k < (subs e.event_type).length →
    ∃ p r, tr.get? p = some (.run i k r)

/-- Progress of the startup coroutine ReminderService.start: before it
runs; suspended on the get_all_users_with_reminders storage read inside
initialize_user_reminders (by this point scheduler.start, the event
manager start and both subscribe calls have already executed,
synchronously and in that order, lines 36-53); or reconciliation
completed. -/
inductive SvcPhase
| beforeStart
| awaitingStorage
| reconDone
deriving DecidableEq, Repr

/-- Joint state of the startup coroutine and the dispatch loop during
process start, at the granularity relevant to reconciliation: the bus
queue, the startup progress, the registry state, and the events whose
handler callbacks have completed. -/
structure BootState where
  bqueue : List Event
  svc : SvcPhase
  rs : RSState
  handled : List Event
deriving DecidableEq, Repr

/-- Effect on the registry of dispatching one event to the ReminderService
callbacks subscribed in start(): _handle_reminder_settings_changed for its
kind, _handle_user_settings_updated for its kind, and no subscriber
otherwise. -/
def dispatchOne (stg : Int → SettingsFetch) (s : RSState) (e : Event) : RSState :=
  match e.event_type with
  | .reminder_settings_changed => (handle_reminder_settings_changed stg s e).1
  | .user_settings_updated => (handle_user_settings_updated stg s e).1
  | _ => s

/-- Labels of the startup interleaving model. -/
inductive BLab
| bpub (e : Event)
| bstart
| brecon (users : List (Int × String))
| bhandle (e : Event)

/-- Transitions of the startup model.  The dispatch loop task exists, and
the two handlers are subscribed, as soon as the first synchronous segment
of start() has run (bstart); reconciliation completes only later, when the
storage read returns (brecon).  Handling an event (bhandle) is therefore
enabled while the startup coroutine is still suspended on its storage
read. -/
inductive BStep (stg : Int → SettingsFetch) : BootState → BLab → BootState → Prop
| bpub (s : BootState) (e : Event) :
    BStep stg s (.bpub e) ⟨s.bqueue ++ [e], s.svc, s.rs, s.handled⟩
| bstart (s : BootState) (h : s.svc = .beforeStart) :
    BStep stg s .bstart ⟨s.bqueue, .awaitingStorage, s.rs, s.handled⟩
| brecon (s : BootState) (users : List (Int × String)) (h : s.svc = .awaitingStorage) :
    BStep stg s (.brecon users) ⟨s.bqueue, .reconDone, init_user_reminders users s.rs, s.handled⟩
| bhandle (s : BootState) (e : Event) (rest : List Event)
    (h1 : s.svc ≠ .beforeStart) (h2 : s.bqueue = e :: rest) :
    BStep stg s (.bhandle e) ⟨rest, s.svc, dispatchOne stg s.rs e, s.handled ++ [e]⟩

/-- Executions of the startup model from a fresh process. -/
inductive BExec (stg : Int → SettingsFetch) : List BLab → BootState → Prop
| init : BExec stg [] ⟨[], .beforeStart, initRS, []⟩
| snoc {tr : List BLab} {s : BootState} {l : BLab} {s' : BootState} :
    BExec stg tr s → BStep stg s l s' → BExec stg (tr ++ [l]) s'

/-- Storage stub whose settings read always raises. -/
def stgErr : Int → SettingsFetch := fun _ => .err

/-- Callback that completes normally. -/
def cbOk : Cb := fun _ => .ok ()

/-- Callback that raises. -/
def cbBoom : Cb := fun _ => .error "boom"

/-- Subscriber registry with a single well-behaved subscriber for every
kind. -/
def subsOne : EventType → List Cb := fun _ => [cbOk]

/-- Subscriber registry with a failing first subscriber and a
well-behaved second subscriber for every kind. -/
def subsAB : EventType → List Cb := fun _ => [cbBoom, cbOk]

/-- Sample event of an unrelated kind. -/
def ev0 : Event := ⟨.user_registered, 1, none, none⟩

/-- Second sample event. -/
def ev1 : Event := ⟨.user_settings_updated, 2, none, none⟩

/-- Reminder-settings-changed event for user 7 with reminders disabled,
constructed (and timestamped by __post_init__) at instant 3. -/
def ev6 : Event :=
  Event.postInit 3
    { event_type := .reminder_settings_changed
      user_id := 7
      data := some [("reminder_enabled", .pbool false), ("reminder_time", .pnone)]
      timestamp := none }


/-- Registry state in which user 7 has an installed job. -/
def sW : RSState := ⟨[(7, "reminder_7")], [("reminder_7", ⟨9, 0⟩)]⟩

/-- Registry state in which user 4 has an installed job. -/
def sW9 : RSState := ⟨[(4, "reminder_4")], [("reminder_4", ⟨8, 30⟩)]⟩

/-- Vocabulary with 25 rows, all due on or before day 30. -/
def vocab25 : List WordData :=
  (List.range 25).map (fun n => ⟨"w" ++ toString n, some (n + 1), none, none⟩)

/-- Settings row with a configured daily review target of 30. -/
def stW : UserSettings := ⟨some ⟨some 30, none, none⟩⟩

/-- Settings row that omits the daily review target key. -/
def stW10 : UserSettings := ⟨some ⟨none, none, none⟩⟩

/-- Sample dispatch trace: two events are published, then each is
dequeued and fully handled in arrival order. -/
def c1trace : List Lab :=
  [.pub 0 ev0, .pub 1 ev1, .enterGet, .deq 0 ev0, .run 0 0 (.ok ()), .fin 0,
   .enterGet, .deq 1 ev1, .run 1 0 (.ok ())]

/-- State reached by the sample dispatch trace. -/
def c1state : EMState := ⟨[], 2, true, .handling 1 ev1 []⟩

theorem lookupKey_none_of_not_mem {α β : Type} [DecidableEq α]
    (l : List (α × β)) (a : α) (h : a ∉ l.map Prod.fst) :
    lookupKey l a = none := by
  induction l with
  | nil => rfl
  | cons p rest ih =>
    obtain ⟨k, v⟩ := p
    simp only [List.map_cons, List.mem_cons] at h
    push_neg at h
    simp only [lookupKey]
    rw [if_neg (fun hc => h.1 hc.symm)]
    exact ih h.2

theorem lookupKey_insertKey_self {α β : Type} [DecidableEq α]
    (l : List (α × β)) (a : α) (b : β) :
    lookupKey (insertKey l a b) a = some b := by
  induction l with
  | nil => simp [insertKey, lookupKey]
  | cons p rest ih =>
    obtain ⟨k, v⟩ := p
    by_cases hk : k = a
    · simp [insertKey, if_pos hk, lookupKey]
    · simp only [insertKey, if_neg hk, lookupKey]
      exact ih

theorem lookupKey_insertKey_ne {α β : Type} [DecidableEq α]
    (l : List (α × β)) (a a' : α) (b : β) (h : a' ≠ a) :
    lookupKey (insertKey l a b) a' = lookupKey l a' := by
  induction l with
  | nil =>
    simp only [insertKey, lookupKey]
    rw [if_neg (fun hc => h hc.symm)]
  | cons p rest ih =>
    obtain ⟨k, v⟩ := p
    by_cases hk : k = a
    · simp only [insertKey, if_pos hk, lookupKey]
      have h1 : ¬(a = a') := fun hc => h hc.symm
      have h2 : ¬(k = a') := fun hc => h (by rw [← hc]; exact hk)
      rw [if_neg h1, if_neg h2]
    · simp only [insertKey, if_neg hk, lookupKey]
      by_cases hk' : k = a'
      · rw [if_pos hk', if_pos hk']
      · rw [if_neg hk', if_neg hk']
        exact ih

theorem lookupKey_eraseKey_ne {α β : Type} [DecidableEq α]
    (l : List (α × β)) (a a' : α) (h : a' ≠ a) :
    lookupKey (eraseKey l a) a' = lookupKey l a' := by
  induction l with
  | nil => rfl
  | cons p rest ih =>
    obtain ⟨k, v⟩ := p
    by_cases hk : k = a
    · simp only [eraseKey, if_pos hk, lookupKey]
      have h2 : ¬(k = a') := fun hc => h (by rw [← hc]; exact hk)
      rw [if_neg h2]
    · simp only [eraseKey, if_neg hk, lookupKey]
      by_cases hk' : k = a'
      · rw [if_pos hk', if_pos hk']
      · rw [if_neg hk', if_neg hk']
        exact ih

theorem keys_eraseKey_self_not_mem {α β : Type} [DecidableEq α]
    (l : List (α × β)) (a : α) (hnd : (l.map Prod.fst).Nodup) :
    a ∉ (eraseKey l a).map Prod.fst := by
  induction l with
  | nil => simp [eraseKey]
  | cons p rest ih =>
    obtain ⟨k, v⟩ := p
    simp only [List.map_cons, List.nodup_cons] at hnd
    by_cases hk : k = a
    · simp only [eraseKey, if_pos hk]
      rw [← hk]
      exact hnd.1
    · simp only [eraseKey, if_neg hk, List.map_cons, List.mem_cons]
      push_neg
      exact ⟨fun hc => hk hc.symm, ih hnd.2⟩

theorem lookupKey_eraseKey_self {α β : Type} [DecidableEq α]
    (l : List (α × β)) (a : α) (hnd : (l.map Prod.fst).Nodup) :
    lookupKey (eraseKey l a) a = none :=
  lookupKey_none_of_not_mem _ _ (keys_eraseKey_self_not_mem l a hnd)

theorem eraseKey_sublist {α β : Type} [DecidableEq α]
    (l : List (α × β)) (a : α) : (eraseKey l a).Sublist l := by
  induction l with
  | nil => simp [eraseKey]
  | cons p rest ih =>
    obtain ⟨k, v⟩ := p
    by_cases hk : k = a
    · simp only [eraseKey, if_pos hk]
      exact (List.sublist_cons_self _ _)
    · simp only [eraseKey, if_neg hk]
      exact ih.cons₂ _

theorem keys_eraseKey_nodup {α β : Type} [DecidableEq α]
    (l : List (α × β)) (a : α) (hnd : (l.map Prod.fst).Nodup) :
    ((eraseKey l a).map Prod.fst).Nodup :=
  hnd.sublist ((eraseKey_sublist l a).map Prod.fst)

theorem mem_keys_insertKey {α β : Type} [DecidableEq α]
    (l : List (α × β)) (a x : α) (b : β)
    (hx : x ∈ (insertKey l a b).map Prod.fst) :
    x ∈ l.map Prod.fst ∨ x = a := by
  induction l with
  | nil =>
    simp only [insertKey, List.map_cons, List.map_nil, List.mem_singleton] at hx
    exact Or.inr hx
  | cons p rest ih =>
    obtain ⟨k, v⟩ := p
    by_cases hk : k = a
    · simp only [insertKey, if_pos hk, List.map_cons, List.mem_cons] at hx
      rcases hx with hx | hx
      · exact Or.inr hx
      · exact Or.inl (by simp [hx])
    · simp only [insertKey, if_neg hk, List.map_cons, List.mem_cons] at hx
      rcases hx with hx | hx
      · exact Or.inl (by simp [hx])
      · rcases ih hx with h2 | h2
        · exact Or.inl (by simp [h2])
        · exact Or.inr h2

theorem keys_insertKey_nodup {α β : Type} [DecidableEq α]
    (l : List (α × β)) (a : α) (b : β) (hnd : (l.map Prod.fst).Nodup) :
    ((insertKey l a b).map Prod.fst).Nodup := by
  induction l with
  | nil => simp [insertKey]
  | cons p rest ih =>
    obtain ⟨k, v⟩ := p
    simp only [List.map_cons, List.nodup_cons] at hnd
    by_cases hk : k = a
    · simp only [insertKey, if_pos hk, List.map_cons, List.nodup_cons]
      exact ⟨by rw [← hk]; exact hnd.1, hnd.2⟩
    · simp only [insertKey, if_neg hk, List.map_cons, List.nodup_cons]
      refine ⟨fun hc => ?_, ih hnd.2⟩
      rcases mem_keys_insertKey rest a k b hc with h2 | h2
      · exact hnd.1 h2
      · exact hk h2

theorem mem_insertKey {α β : Type} [DecidableEq α]
    (l : List (α × β)) (a : α) (b : β) (p : α × β)
    (hp : p ∈ insertKey l a b) : p = (a, b) ∨ p ∈ l := by
  induction l with
  | nil =>
    simp only [insertKey, List.mem_singleton] at hp
    exact Or.inl hp
  | cons q rest ih =>
    obtain ⟨k, v⟩ := q
    by_cases hk : k = a
    · simp only [insertKey, if_pos hk, List.mem_cons] at hp
      rcases hp with hp | hp
      · exact Or.inl hp
      · exact Or.inr (List.mem_cons_of_mem _ hp)
    · simp only [insertKey, if_neg hk, List.mem_cons] at hp
      rcases hp with hp | hp
      · exact Or.inr (by simp [hp])
      · rcases ih hp with h2 | h2
        · exact Or.inl h2
        · exact Or.inr (List.mem_cons_of_mem _ h2)


theorem lookupKey_mem {α β : Type} [DecidableEq α]
    {l : List (α × β)} {a : α} {b : β} (h : lookupKey l a = some b) :
    (a, b) ∈ l := by
  induction l with
  | nil => exact absurd h (by simp [lookupKey])
  | cons p rest ih =>
    obtain ⟨k, v⟩ := p
    simp only [lookupKey] at h
    by_cases hk : k = a
    · rw [if_pos hk] at h
      injection h with h2
      subst h2
      subst hk
      exact List.mem_cons_self _ _
    · rw [if_neg hk] at h
      exact List.mem_cons_of_mem _ (ih h)

/-- Consistency of the two halves of the service state: every job id
recorded in active_jobs is present in the scheduler job table.  Every
state reachable through the service operations satisfies this. -/
def RSConsistent (s : RSState) : Prop :=
  ∀ p ∈ s.active_jobs, containsKey s.sched p.2 = true

instance (s : RSState) : Decidable (RSConsistent s) := by
  unfold RSConsistent
  infer_instance

theorem hasJob_remove_self (s : RSState) (u : Int)
    (hnd : (s.active_jobs.map Prod.fst).Nodup)
    (hcons : RSConsistent s) :
    hasJob (remove_user_reminder s u) u = false := by
  unfold remove_user_reminder
  cases hl : lookupKey s.active_jobs u with
  | none => simp [hasJob, containsKey, hl]
  | some jid =>
    have hc : (lookupKey s.sched jid).isSome = true := hcons (u, jid) (lookupKey_mem hl)
    simp [hc, hasJob, containsKey, lookupKey_eraseKey_self s.active_jobs u hnd]

/-- C3: publishing ReminderSettingsChanged with reminder_enabled false and
dispatching the published event to the subscribed handler always leaves
the user without a job, whatever the prior consistent registry state
(including the state with no job for the user), and that handler path
performs no storage read. -/
theorem disable_removes_job_without_read (stg : Int → SettingsFetch) (s : RSState)
    (now : Nat) (u : Int) (rt : Option String)
    (hnd : (s.active_jobs.map Prod.fst).Nodup)
    (hcons : RSConsistent s) :
    ∀ e ∈ publish_reminder_settings_changed now u false rt [],
      hasJob (handle_reminder_settings_changed stg s e).1 u = false ∧
      (handle_reminder_settings_changed stg s e).2 = 0 := by
  intro e he
  simp only [publish_reminder_settings_changed, publish, List.nil_append,
    List.mem_singleton] at he
  subst he
  simp only [handle_reminder_settings_changed, Event.postInit, dictGet, lookupKey]
  simp only [if_pos rfl, Option.getD_some, PVal.truthy, Bool.false_eq_true, if_false]
  exact ⟨hasJob_remove_self s u hnd hcons, rfl⟩

theorem c3_witness :
    ((sW.active_jobs.map Prod.fst).Nodup ∧ RSConsistent sW) ∧
    (∀ e ∈ publish_reminder_settings_changed 3 7 false none [],
      hasJob (handle_reminder_settings_changed stgErr sW e).1 7 = false ∧
      (handle_reminder_settings_changed stgErr sW e).2 = 0) :=
  ⟨⟨by decide, by decide⟩,
    disable_removes_job_without_read stgErr sW 3 7 none (by decide) (by decide)⟩

/-- C9: calling setup_user_reminder with a time string that does not parse
as two colon separated integers first removes the existing job of the
user, then aborts on the parse exception, which the enclosing try block
swallows: the caller sees no exception, the user ends without any job, and
the prior job is not restored. -/
theorem malformed_time_install_not_atomic (s : RSState) (u : Int) (t : String)
    (jid : String)
    (hparse : parseHHMM t = none)
    (hnd : (s.active_jobs.map Prod.fst).Nodup)
    (hcons : RSConsistent s)
    (hhas : lookupKey s.active_jobs u = some jid) :
    setup_user_reminder s u t = remove_user_reminder s u ∧
    hasJob s u = true ∧
    hasJob (setup_user_reminder s u t) u = false := by
  have h1 : setup_user_reminder s u t = remove_user_reminder s u := by
    simp only [setup_user_reminder, hparse]
  refine ⟨h1, ?_, ?_⟩
  · simp [hasJob, containsKey, hhas]
  · rw [h1]
    exact hasJob_remove_self s u hnd hcons

theorem c9_witness :
    (parseHHMM "abc" = none ∧ (sW9.active_jobs.map Prod.fst).Nodup ∧
      RSConsistent sW9 ∧ lookupKey sW9.active_jobs 4 = some "reminder_4") ∧
    (setup_user_reminder sW9 4 "abc" = remove_user_reminder sW9 4 ∧
      hasJob sW9 4 = true ∧
      hasJob (setup_user_reminder sW9 4 "abc") 4 = false) :=
  ⟨⟨by decide, by decide, by decide, by decide⟩,
    malformed_time_install_not_atomic sW9 4 "abc" "reminder_4"
      (by decide) (by decide) (by decide) (by decide)⟩

theorem rsInv_preserved_remove (s : RSState) (u : Int)
    (h1 : (s.active_jobs.map Prod.fst).Nodup)
    (h2 : ∀ p ∈ s.active_jobs, p.2 = jobId p.1)
    (h3 : (s.sched.map Prod.fst).Nodup) :
    ((remove_user_reminder s u).active_jobs.map Prod.fst).Nodup ∧
    (∀ p ∈ (remove_user_reminder s u).active_jobs, p.2 = jobId p.1) ∧
    ((remove_user_reminder s u).sched.map Prod.fst).Nodup := by
  unfold remove_user_reminder
  cases hl : lookupKey s.active_jobs u with
  | none => exact ⟨h1, h2, h3⟩
  | some jid =>
    by_cases hcs : containsKey s.sched jid = true
    · simp only [hcs, if_true]
      refine ⟨keys_eraseKey_nodup _ _ h1, ?_, keys_eraseKey_nodup _ _ h3⟩
      intro p hp
      exact h2 p ((eraseKey_sublist s.active_jobs u).subset hp)
    · simp only [hcs, if_false]
      exact ⟨h1, h2, h3⟩

theorem rsInv_preserved_setup (s : RSState) (u : Int) (t : String)
    (h1 : (s.active_jobs.map Prod.fst).Nodup)
    (h2 : ∀ p ∈ s.active_jobs, p.2 = jobId p.1)
    (h3 : (s.sched.map Prod.fst).Nodup) :
    ((setup_user_reminder s u t).active_jobs.map Prod.fst).Nodup ∧
    (∀ p ∈ (setup_user_reminder s u t).active_jobs, p.2 = jobId p.1) ∧
    ((setup_user_reminder s u t).sched.map Prod.fst).Nodup := by
  obtain ⟨g1, g2, g3⟩ := rsInv_preserved_remove s u h1 h2 h3
  unfold setup_user_reminder
  cases hp : parseHHMM t with
  | none => exact ⟨g1, g2, g3⟩
  | some hm =>
    obtain ⟨hh, mm⟩ := hm
    by_cases hv : validTrigger hh mm = true
    · simp only [hv, if_true]
      refine ⟨keys_insertKey_nodup _ _ _ g1, ?_, keys_insertKey_nodup _ _ _ g3⟩
      intro p hp2
      rcases mem_insertKey _ _ _ _ hp2 with h4 | h4
      · rw [h4]
      · exact g2 p h4
    · simp only [hv, if_false]
      exact ⟨g1, g2, g3⟩

/-- C5: starting from a fresh process, after any sequence of install,
replace and remove operations, the active_jobs dict binds each user at
most once, every recorded job id is the deterministic reminder_(user_id)
string, the scheduler job table never holds two jobs under one id, and in
particular it never holds two triggers for one user: an install under an
existing job id replaces rather than duplicates. -/
theorem registry_at_most_one_job (ops : List ROp) :
    (((runROps initRS ops).active_jobs.map Prod.fst).Nodup) ∧
    (∀ p ∈ (runROps initRS ops).active_jobs, p.2 = jobId p.1) ∧
    (((runROps initRS ops).sched.map Prod.fst).Nodup) ∧
    (∀ u : Int, ((runROps initRS ops).sched.map Prod.fst).count (jobId u) ≤ 1) := by
  suffices h : ∀ (s : RSState),
      (s.active_jobs.map Prod.fst).Nodup →
      (∀ p ∈ s.active_jobs, p.2 = jobId p.1) →
      (s.sched.map Prod.fst).Nodup →
      ((runROps s ops).active_jobs.map Prod.fst).Nodup ∧
      (∀ p ∈ (runROps s ops).active_jobs, p.2 = jobId p.1) ∧
      ((runROps s ops).sched.map Prod.fst).Nodup by
    obtain ⟨k1, k2, k3⟩ :=
      h initRS (by simp [initRS]) (by simp [initRS]) (by simp [initRS])
    refine ⟨k1, k2, k3, fun u => ?_⟩
    exact List.nodup_iff_count_le_one.mp k3 (jobId u)
  induction ops with
  | nil => intro s a b c; exact ⟨a, b, c⟩
  | cons op rest ih =>
    intro s a b c
    cases op with
    | setup u t =>
      obtain ⟨a2, b2, c2⟩ := rsInv_preserved_setup s u t a b c
      exact ih (setup_user_reminder s u t) a2 b2 c2
    | remove u =>
      obtain ⟨a2, b2, c2⟩ := rsInv_preserved_remove s u a b c
      exact ih (remove_user_reminder s u) a2 b2 c2

theorem hasJob_setup_valid (s : RSState) (u : Int) (t : String) (hh mm : Int)
    (hp : parseHHMM t = some (hh, mm)) (hv : validTrigger hh mm = true) :
    hasJob (setup_user_reminder s u t) u = true := by
  simp only [setup_user_reminder, hp, hv, if_true]
  simp [hasJob, containsKey, lookupKey_insertKey_self]

theorem hasJob_remove_other (s : RSState) (u u2 : Int) (hne : u2 ≠ u) :
    hasJob (remove_user_reminder s u2) u = hasJob s u := by
  unfold remove_user_reminder
  cases hl : lookupKey s.active_jobs u2 with
  | none => rfl
  | some jid =>
    by_cases hcs : containsKey s.sched jid = true
    · simp only [hcs, if_true]
      simp [hasJob, containsKey,
        lookupKey_eraseKey_ne s.active_jobs u2 u (fun hc => hne hc.symm)]
    · simp only [hcs, Bool.false_eq_true, if_false]

theorem hasJob_setup_other (s : RSState) (u u2 : Int) (t : String) (hne : u2 ≠ u) :
    hasJob (setup_user_reminder s u2 t) u = hasJob s u := by
  unfold setup_user_reminder
  cases hp : parseHHMM t with
  | none => exact hasJob_remove_other s u u2 hne
  | some hm =>
    obtain ⟨hh, mm⟩ := hm
    by_cases hv : validTrigger hh mm = true
    · simp only [hv, if_true]
      simp only [hasJob, containsKey,
        lookupKey_insertKey_ne (remove_user_reminder s u2).active_jobs u2 u (jobId u2)
          (fun hc => hne hc.symm)]
      exact hasJob_remove_other s u u2 hne
    · simp only [hv, if_false]
      exact hasJob_remove_other s u u2 hne

theorem hasJob_foldl_setup_other (l : List (Int × String)) (s : RSState) (u : Int)
    (hl : ∀ p ∈ l, p.1 ≠ u) :
    hasJob (init_user_reminders l s) u = hasJob s u := by
  induction l generalizing s with
  | nil => rfl
  | cons p rest ih =>
    simp only [init_user_reminders, List.foldl_cons]
    have step := ih (setup_user_reminder s p.1 p.2)
      (fun q hq => hl q (List.mem_cons_of_mem _ hq))
    simp only [init_user_reminders] at step
    rw [step]
    exact hasJob_setup_other s u p.1 p.2 (hl p (List.mem_cons_self _ _))

/-- C6 (amended): reconciliation installs a job for every enabled user
whose stored row carries a well formed time, and a failure while
installing for one user (malformed time, out-of-range trigger) is caught
and skipped without aborting the installation of the remaining users: the
well formed users end up with a job wherever in the list the failing
entries sit.  The original temporal half of the claim does not hold, see
the counterexample: the dispatch loop is started and the handlers are
subscribed before the reconciliation pass runs, so a published event can
be handled while reconciliation is still pending. -/
theorem reconciliation_skips_failures
    (users : List (Int × String)) (s : RSState) (u : Int) (t : String)
    (pre post : List (Int × String)) (hh mm : Int)
    (hsplit : users = pre ++ (u, t) :: post)
    (hlast : ∀ p ∈ post, p.1 ≠ u)
    (hparse : parseHHMM t = some (hh, mm))
    (hvalid : validTrigger hh mm = true) :
    hasJob (init_user_reminders users s) u = true := by
  subst hsplit
  unfold init_user_reminders
  rw [List.foldl_append]
  simp only [List.foldl_cons]
  have step := hasJob_foldl_setup_other post
    (setup_user_reminder (pre.foldl (fun acc ut => setup_user_reminder acc ut.1 ut.2) s) u t)
    u hlast
  simp only [init_user_reminders] at step
  rw [step]
  exact hasJob_setup_valid _ u t hh mm hparse hvalid

theorem c6_witness :
    (([(3, "oops"), (5, "07:30")] : List (Int × String)) =
        [(3, "oops")] ++ (5, "07:30") :: [] ∧
      (∀ p ∈ ([] : List (Int × String)), p.1 ≠ (5 : Int)) ∧
      parseHHMM "07:30" = some (7, 30) ∧ validTrigger 7 30 = true) ∧
    hasJob (init_user_reminders [(3, "oops"), (5, "07:30")] initRS) 5 = true :=
  ⟨⟨rfl, by simp, by decide, by decide⟩,
    reconciliation_skips_failures [(3, "oops"), (5, "07:30")] initRS 5 "07:30"
      [(3, "oops")] [] 7 30 rfl (by simp) (by decide) (by decide)⟩

/-- C6 counterexample: an interleaving admitted by the await structure of
ReminderService.start in which an event published early is fully handled
while the startup coroutine is still suspended on the reconciliation
storage read: bstart models the synchronous segment of start() (scheduler
start, event manager start, the two subscribe calls, lines 36-53), after
which the dispatch loop task is live and reconciliation has not begun, so
the claim that no published event is handled before reconciliation
completes is false for this code. -/
theorem c6_counterexample :
    BExec stgErr [BLab.bpub ev6, BLab.bstart, BLab.bhandle ev6]
      ⟨[], .awaitingStorage, initRS, [ev6]⟩ ∧
    ((⟨[], .awaitingStorage, initRS, [ev6]⟩ : BootState).handled ≠ []) ∧
    ((⟨[], .awaitingStorage, initRS, [ev6]⟩ : BootState).svc ≠ SvcPhase.reconDone) := by
  refine ⟨?_, by simp, by decide⟩
  have e0 : BExec stgErr [] ⟨[], .beforeStart, initRS, []⟩ := .init
  have e1 : BExec stgErr [BLab.bpub ev6] ⟨[ev6], .beforeStart, initRS, []⟩ :=
    BExec.snoc e0 (BStep.bpub _ ev6)
  have e2 : BExec stgErr [BLab.bpub ev6, BLab.bstart]
      ⟨[ev6], .awaitingStorage, initRS, []⟩ :=
    BExec.snoc e1 (BStep.bstart _ rfl)
  exact BExec.snoc e2 (BStep.bhandle _ ev6 [] (by decide) rfl)

theorem mem_filterDue_due {vocab : List WordData} {today : Nat} {w : DueWord}
    (hw : w ∈ filterDue vocab today) : w.next_review ≤ today := by
  unfold filterDue at hw
  rcases List.mem_filterMap.mp hw with ⟨wd, _, hf⟩
  split at hf
  · split at hf
    case isTrue hle =>
      injection hf with h2
      rw [← h2]
      exact hle
    case isFalse hle => exact absurd hf (by simp)
  · exact absurd hf (by simp)

/-- C4: on the path where the settings fetch succeeds and the row carries
a configured daily_review_target, the selection keeps exactly the rows
whose due date is at most today, sorts them ascending by due date, and
returns their first min(daily_target, 20): the returned list is sorted
ascending, every entry is due, its length is
min(min(daily_target, 20), number of due rows), and never exceeds the
hard ceiling 20 whatever the configured target. -/
theorem due_selection_policy (vocab : List WordData) (today : Nat)
    (st : UserSettings) (target : Nat)
    (htarget : (st.learning_preferences.getD default).daily_review_target = some target) :
    (sortDue (filterDue vocab today)).Perm (filterDue vocab today) ∧
    List.Sorted dueLe (sortDue (filterDue vocab today)) ∧
    get_due_words_for_user vocab today (.ok (some st)) =
      (sortDue (filterDue vocab today)).take (min target 20) ∧
    List.Sorted dueLe (get_due_words_for_user vocab today (.ok (some st))) ∧
    (∀ w ∈ get_due_words_for_user vocab today (.ok (some st)), w.next_review ≤ today) ∧
    (get_due_words_for_user vocab today (.ok (some st))).length =
      min (min target 20) (filterDue vocab today).length ∧
    (get_due_words_for_user vocab today (.ok (some st))).length ≤ 20 := by
  have hperm : (sortDue (filterDue vocab today)).Perm (filterDue vocab today) :=
    List.perm_insertionSort dueLe _
  have hsorted : List.Sorted dueLe (sortDue (filterDue vocab today)) :=
    List.sorted_insertionSort dueLe (filterDue vocab today)
  have heq : get_due_words_for_user vocab today (.ok (some st)) =
      (sortDue (filterDue vocab today)).take (min target 20) := by
    simp [get_due_words_for_user, dailyTargetOf, htarget]
  have hlen : (get_due_words_for_user vocab today (.ok (some st))).length =
      min (min target 20) (filterDue vocab today).length := by
    rw [heq, List.length_take, hperm.length_eq]
  refine ⟨hperm, hsorted, heq, ?_, ?_, hlen, ?_⟩
  · rw [heq]
    exact hsorted.sublist (List.take_sublist _ _)
  · intro w hw
    rw [heq] at hw
    have hw2 : w ∈ sortDue (filterDue vocab today) :=
      (List.take_sublist _ _).subset hw
    exact mem_filterDue_due (hperm.mem_iff.mp hw2)
  · rw [hlen]
    exact le_trans (min_le_left _ _) (min_le_right _ _)

theorem c4_witness :
    ((stW.learning_preferences.getD default).daily_review_target = some 30) ∧
    (filterDue vocab25 30).length = 25 ∧
    (get_due_words_for_user vocab25 30 (.ok (some stW))).length = 20 :=
  ⟨rfl, by decide, by
    have h := (due_selection_policy vocab25 30 stW 30 rfl).2.2.2.2.2.1
    rw [h]
    decide⟩

/-- C10: when the settings lookup raises, the due selection does not
apply the min(daily_target, 20) cap but returns the first 10 sorted due
rows, and the same effective cap 10 applies when the settings row is
absent or lacks the daily_review_target key: the cap on the error and
default paths is 10, not the 20-item hard ceiling. -/
theorem default_cap_is_ten (vocab : List WordData) (today : Nat)
    (st : UserSettings)
    (hnone : (st.learning_preferences.getD default).daily_review_target = none) :
    get_due_words_for_user vocab today .err =
      (sortDue (filterDue vocab today)).take 10 ∧
    (get_due_words_for_user vocab today .err).length ≤ 10 ∧
    get_due_words_for_user vocab today (.ok none) =
      (sortDue (filterDue vocab today)).take 10 ∧
    get_due_words_for_user vocab today (.ok (some st)) =
      (sortDue (filterDue vocab today)).take 10 := by
  refine ⟨rfl, ?_, ?_, ?_⟩
  · rw [show get_due_words_for_user vocab today .err =
        (sortDue (filterDue vocab today)).take 10 from rfl, List.length_take]
    exact min_le_left _ _
  · rfl
  · simp [get_due_words_for_user, dailyTargetOf, hnone]

theorem c10_witness :
    ((stW10.learning_preferences.getD default).daily_review_target = none) ∧
    (get_due_words_for_user vocab25 31 .err =
        (sortDue (filterDue vocab25 31)).take 10 ∧
      (get_due_words_for_user vocab25 31 .err).length ≤ 10 ∧
      get_due_words_for_user vocab25 31 (.ok none) =
        (sortDue (filterDue vocab25 31)).take 10 ∧
      get_due_words_for_user vocab25 31 (.ok (some stW10)) =
        (sortDue (filterDue vocab25 31)).take 10) :=
  ⟨rfl, default_cap_is_ten vocab25 31 stW10 rfl⟩

/-- C8 counterexample: an event constructed at instant 5 and published
later, at instant 9, carries timestamp 5 and not 9: Event.__post_init__
assigns the timestamp when the object is created, and publish (which is
the only step that happens at instant 9) enqueues the event without
touching it, so the claim that the timestamp is assigned at publish time
is false for this code. -/
theorem c8_counterexample :
    (publish (Event.postInit 5 ⟨.user_registered, 1, none, none⟩) []).map Event.timestamp
      = [some 5] ∧ (some (5 : Nat) ≠ some 9) := by decide

/-- C8 (amended): the timestamp is assigned at event creation time by the
__post_init__ hook whenever it is not explicitly supplied, and publish
enqueues the event unchanged, so an event constructed at t1 still carries
timestamp t1 after being published at any later instant. -/
theorem timestamp_assigned_at_creation (t1 : Nat) (k : EventType) (u : Int)
    (d : Option PDict) (q : List Event) :
    (Event.postInit t1 ⟨k, u, d, none⟩).timestamp = some t1 ∧
    publish (Event.postInit t1 ⟨k, u, d, none⟩) q =
      q ++ [Event.postInit t1 ⟨k, u, d, none⟩] :=
  ⟨rfl, rfl⟩

theorem get?_some_lt {α : Type} {l : List α} {p : Nat} {x : α}
    (h : l.get? p = some x) : p < l.length := by
  by_contra hc
  push_neg at hc
  rw [List.get?_eq_none.mpr hc] at h
  exact Option.noConfusion h

theorem get?_snoc_of_some {α : Type} {l : List α} {b : α} {p : Nat} {x : α}
    (h : l.get? p = some x) : (l ++ [b]).get? p = some x := by
  rw [List.get?_append (get?_some_lt h)]
  exact h

theorem get?_snoc_cases {α : Type} {l : List α} {b : α} {p : Nat} {x : α}
    (h : (l ++ [b]).get? p = some x) :
    (l.get? p = some x) ∨ (p = l.length ∧ x = b) := by
  by_cases hp : p < l.length
  · left
    rw [List.get?_append hp] at h
    exact h
  · right
    push_neg at hp
    rw [List.get?_append_right hp] at h
    cases hq : p - l.length with
    | zero =>
      rw [hq] at h
      simp only [List.get?] at h
      injection h with h2
      exact ⟨Nat.le_antisymm (Nat.le_of_sub_eq_zero hq) hp, h2.symm⟩
    | succ n =>
      rw [hq] at h
      simp only [List.get?] at h
      exact absurd h (by simp)

theorem mem_snoc_elim {α : Type} {l : List α} {a b : α}
    (h : a ∈ l ++ [b]) : a ∈ l ∨ a = b := by
  rcases List.mem_append.mp h with h2 | h2
  · exact Or.inl h2
  · exact Or.inr (List.mem_singleton.mp h2)

theorem enqs_snoc (tr : List Lab) (l : Lab) :
    enqs (tr ++ [l]) = enqs tr ++ (enqItem l).toList := by
  simp [enqs, List.filterMap_append]
  cases hl : enqItem l <;> simp [List.filterMap, hl]

theorem deqs_snoc (tr : List Lab) (l : Lab) :
    deqs (tr ++ [l]) = deqs tr ++ (deqItem l).toList := by
  simp [deqs, List.filterMap_append]
  cases hl : deqItem l <;> simp [List.filterMap, hl]

theorem ranAll_mono {subs : EventType → List Cb} {tr : List Lab} {i : Nat}
    {e : Event} (l : Lab) (h : ranAll subs tr i e) :
    ranAll subs (tr ++ [l]) i e := by
  intro k hk
  obtain ⟨p, r, hp⟩ := h k hk
  exact ⟨p, r, get?_snoc_of_some hp⟩

theorem stopCall_of_enqs_none {tr : List Lab} {i : Nat}
    (h : (i, (none : Option Event)) ∈ enqs tr) : Lab.stopCall i ∈ tr := by
  rcases List.mem_filterMap.mp h with ⟨l, hl, hf⟩
  cases l with
  | stopCall j =>
    simp only [enqItem, Option.some.injEq, Prod.mk.injEq] at hf
    rw [← hf.1]
    exact hl
  | pub j e => simp [enqItem] at hf
  | enterGet => simp [enqItem] at hf
  | exitWhile => simp [enqItem] at hf
  | deq j e => simp [enqItem] at hf
  | deqStop j => simp [enqItem] at hf
  | run j k r => simp [enqItem] at hf
  | fin j => simp [enqItem] at hf

/-- Inductive invariant of event manager executions, tying the reached
state to the trace observed so far. -/
structure EMInv (subs : EventType → List Cb) (tr : List Lab) (s : EMState) : Prop where
  idxSeq : ∀ p x, (enqs tr).get? p = some x → x.1 = p
  enqLen : (enqs tr).length = s.nextIdx
  deqTake : deqs tr = (enqs tr).take (deqs tr).length
  queueRest : s.queue = (enqs tr).drop (deqs tr).length
  runIdxLt : ∀ i k r, (Lab.run i k r) ∈ tr → i < (deqs tr).length
  handlingCur : ∀ i e todo, s.phase = .handling i e todo →
      i + 1 = (deqs tr).length ∧ (deqs tr).get? i = some (i, some e) ∧
      (∀ k ∈ todo, k < (subs e.event_type).length) ∧
      (∀ k, k < (subs e.event_type).length →
        k ∈ todo ∨ ∃ p r, tr.get? p = some (.run i k r))
  doneRan : ∀ i e, (deqs tr).get? i = some (i, some e) →
      (∀ e2 todo, s.phase ≠ .handling i e2 todo) → ranAll subs tr i e
  runResult : ∀ p i k r, tr.get? p = some (.run i k r) →
      ∃ e, (deqs tr).get? i = some (i, some e) ∧ r = runCallback subs e k
  runningStop : s.running = false → ∃ i, (Lab.stopCall i) ∈ tr
  stoppedStop : s.phase = .stopped → ∃ i, (Lab.stopCall i) ∈ tr

theorem EMInv.deqLenLe {subs : EventType → List Cb} {tr : List Lab} {s : EMState}
    (h : EMInv subs tr s) : (deqs tr).length ≤ (enqs tr).length := by
  have h2 := congrArg List.length h.deqTake
  rw [List.length_take] at h2
  exact le_trans (le_of_eq h2) (min_le_right _ _)

set_option maxHeartbeats 1000000

theorem emInv {subs : EventType → List Cb} {tr : List Lab} {s : EMState}
    (h : EMExec subs tr s) : EMInv subs tr s := by
  induction h with
  | init =>
    constructor
    · intro p x hx
      simp [enqs, initEM, List.filterMap] at hx
    · simp [enqs, initEM, List.filterMap]
    · simp [deqs, enqs, List.filterMap]
    · simp [deqs, enqs, initEM, List.filterMap]
    · intro i k r hr
      simp at hr
    · intro i e todo hp
      simp [initEM] at hp
    · intro i e hd
      simp [deqs, List.filterMap] at hd
    · intro p i k r hr
      simp at hr
    · intro hr
      simp [initEM] at hr
    · intro hp
      simp [initEM] at hp
  | @snoc tr s l s' hexec hstep ih =>
    cases hstep with
    | pub e =>
      have hE : enqs (tr ++ [Lab.pub s.nextIdx e]) = enqs tr ++ [(s.nextIdx, some e)] := by
        rw [enqs_snoc]; rfl
      have hD : deqs (tr ++ [Lab.pub s.nextIdx e]) = deqs tr := by
        rw [deqs_snoc]; simp [deqItem]
      constructor
      · intro p x hx
        rw [hE] at hx
        rcases get?_snoc_cases hx with h2 | ⟨h2, h3⟩
        · exact ih.idxSeq p x h2
        · rw [h3]
          show s.nextIdx = p
          rw [h2, ← ih.enqLen]
      · rw [hE]
        simp [List.length_append, ih.enqLen]
      · rw [hD, hE]
        rw [List.take_append_of_le_length ih.deqLenLe]
        exact ih.deqTake
      · show s.queue ++ [(s.nextIdx, some e)] = _
        rw [hD, hE, List.drop_append_of_le_length ih.deqLenLe, ih.queueRest]
      · intro i k r hr
        rw [hD]
        rcases mem_snoc_elim hr with h2 | h2
        · exact ih.runIdxLt i k r h2
        · simp at h2
      · intro i e2 todo hp
        obtain ⟨a1, a2, a3, a4⟩ := ih.handlingCur i e2 todo hp
        refine ⟨by rw [hD]; exact a1, by rw [hD]; exact a2, a3, ?_⟩
        intro k hk
        rcases a4 k hk with h2 | ⟨p, r, hp2⟩
        · exact Or.inl h2
        · exact Or.inr ⟨p, r, get?_snoc_of_some hp2⟩
      · intro i e2 hd hg
        rw [hD] at hd
        exact ranAll_mono _ (ih.doneRan i e2 hd hg)
      · intro p i k r hr
        rcases get?_snoc_cases hr with h2 | ⟨h2, h3⟩
        · obtain ⟨e2, hd, hres⟩ := ih.runResult p i k r h2
          exact ⟨e2, by rw [hD]; exact hd, hres⟩
        · simp at h3
      · intro hr
        obtain ⟨i, hi⟩ := ih.runningStop hr
        exact ⟨i, List.mem_append_left _ hi⟩
      · intro hp
        obtain ⟨i, hi⟩ := ih.stoppedStop hp
        exact ⟨i, List.mem_append_left _ hi⟩
    | stop hrun =>
      have hE : enqs (tr ++ [Lab.stopCall s.nextIdx]) = enqs tr ++ [(s.nextIdx, none)] := by
        rw [enqs_snoc]; rfl
      have hD : deqs (tr ++ [Lab.stopCall s.nextIdx]) = deqs tr := by
        rw [deqs_snoc]; simp [deqItem]
      constructor
      · intro p x hx
        rw [hE] at hx
        rcases get?_snoc_cases hx with h2 | ⟨h2, h3⟩
        · exact ih.idxSeq p x h2
        · rw [h3]
          show s.nextIdx = p
          rw [h2, ← ih.enqLen]
      · rw [hE]
        simp [List.length_append, ih.enqLen]
      · rw [hD, hE]
        rw [List.take_append_of_le_length ih.deqLenLe]
        exact ih.deqTake
      · show s.queue ++ [(s.nextIdx, none)] = _
        rw [hD, hE, List.drop_append_of_le_length ih.deqLenLe, ih.queueRest]
      · intro i k r hr
        rw [hD]
        rcases mem_snoc_elim hr with h2 | h2
        · exact ih.runIdxLt i k r h2
        · simp at h2
      · intro i e2 todo hp
        obtain ⟨a1, a2, a3, a4⟩ := ih.handlingCur i e2 todo hp
        refine ⟨by rw [hD]; exact a1, by rw [hD]; exact a2, a3, ?_⟩
        intro k hk
        rcases a4 k hk with h2 | ⟨p, r, hp2⟩
        · exact Or.inl h2
        · exact Or.inr ⟨p, r, get?_snoc_of_some hp2⟩
      · intro i e2 hd hg
        rw [hD] at hd
        exact ranAll_mono _ (ih.doneRan i e2 hd hg)
      · intro p i k r hr
        rcases get?_snoc_cases hr with h2 | ⟨h2, h3⟩
        · obtain ⟨e2, hd, hres⟩ := ih.runResult p i k r h2
          exact ⟨e2, by rw [hD]; exact hd, hres⟩
        · simp at h3
      · intro _
        exact ⟨s.nextIdx, List.mem_append_right _ (List.mem_singleton.mpr rfl)⟩
      · intro hp
        obtain ⟨i, hi⟩ := ih.stoppedStop hp
        exact ⟨i, List.mem_append_left _ hi⟩
    | exitW h1 h2 =>
      have hE : enqs (tr ++ [Lab.exitWhile]) = enqs tr := by
        rw [enqs_snoc]; simp [enqItem]
      have hD : deqs (tr ++ [Lab.exitWhile]) = deqs tr := by
        rw [deqs_snoc]; simp [deqItem]
      constructor
      · intro p x hx
        rw [hE] at hx
        exact ih.idxSeq p x hx
      · rw [hE]
        exact ih.enqLen
      · rw [hD, hE]
        exact ih.deqTake
      · show s.queue = _
        rw [hD, hE]
        exact ih.queueRest
      · intro i k r hr
        rw [hD]
        rcases mem_snoc_elim hr with h3 | h3
        · exact ih.runIdxLt i k r h3
        · simp at h3
      · intro i e2 todo hp
        simp at hp
      · intro i e2 hd hg
        rw [hD] at hd
        refine ranAll_mono _ (ih.doneRan i e2 hd ?_)
        intro e3 todo
        rw [h1]
        simp
      · intro p i k r hr
        rcases get?_snoc_cases hr with h3 | ⟨h3, h4⟩
        · obtain ⟨e2, hd, hres⟩ := ih.runResult p i k r h3
          exact ⟨e2, by rw [hD]; exact hd, hres⟩
        · simp at h4
      · intro _
        obtain ⟨i, hi⟩ := ih.runningStop h2
        exact ⟨i, List.mem_append_left _ hi⟩
      · intro _
        obtain ⟨i, hi⟩ := ih.runningStop h2
        exact ⟨i, List.mem_append_left _ hi⟩
    | enter h1 h2 =>
      have hE : enqs (tr ++ [Lab.enterGet]) = enqs tr := by
        rw [enqs_snoc]; simp [enqItem]
      have hD : deqs (tr ++ [Lab.enterGet]) = deqs tr := by
        rw [deqs_snoc]; simp [deqItem]
      constructor
      · intro p x hx
        rw [hE] at hx
        exact ih.idxSeq p x hx
      · rw [hE]
        exact ih.enqLen
      · rw [hD, hE]
        exact ih.deqTake
      · show s.queue = _
        rw [hD, hE]
        exact ih.queueRest
      · intro i k r hr
        rw [hD]
        rcases mem_snoc_elim hr with h3 | h3
        · exact ih.runIdxLt i k r h3
        · simp at h3
      · intro i e2 todo hp
        simp at hp
      · intro i e2 hd hg
        rw [hD] at hd
        refine ranAll_mono _ (ih.doneRan i e2 hd ?_)
        intro e3 todo
        rw [h1]
        simp
      · intro p i k r hr
        rcases get?_snoc_cases hr with h3 | ⟨h3, h4⟩
        · obtain ⟨e2, hd, hres⟩ := ih.runResult p i k r h3
          exact ⟨e2, by rw [hD]; exact hd, hres⟩
        · simp at h4
      · intro hr
        obtain ⟨i, hi⟩ := ih.runningStop hr
        exact ⟨i, List.mem_append_left _ hi⟩
      · intro hp
        simp at hp
    | deqE i e rest h1 h2 =>
      have hE : enqs (tr ++ [Lab.deq i e]) = enqs tr := by
        rw [enqs_snoc]; simp [enqItem]
      have hD : deqs (tr ++ [Lab.deq i e]) = deqs tr ++ [(i, some e)] := by
        rw [deqs_snoc]; rfl
      have hq := ih.queueRest
      rw [h2] at hq
      have hgetE : (enqs tr).get? (deqs tr).length = some (i, some e) := by
        have h3 : (List.drop (deqs tr).length (enqs tr)).get? 0 =
            (enqs tr).get? ((deqs tr).length + 0) := List.get?_drop _ _ _
        rw [← hq] at h3
        simpa using h3.symm
      have hiD : i = (deqs tr).length := by
        have := ih.idxSeq (deqs tr).length (i, some e) hgetE
        simpa using this
      have hDlt : (deqs tr).length < (enqs tr).length := get?_some_lt hgetE
      have hrest : rest = (enqs tr).drop ((deqs tr).length + 1) := by
        have h4 := congrArg (List.drop 1) hq
        rw [List.drop_drop] at h4
        simpa using h4
      constructor
      · intro p x hx
        rw [hE] at hx
        exact ih.idxSeq p x hx
      · rw [hE]
        exact ih.enqLen
      · rw [hD, hE]
        simp only [List.length_append, List.length_singleton]
        rw [List.take_succ, ← List.get?_eq_getElem?, hgetE, ← ih.deqTake]
        simp
      · show rest = _
        rw [hD, hE]
        simp only [List.length_append, List.length_singleton]
        exact hrest
      · intro i2 k r hr
        rw [hD]
        simp only [List.length_append, List.length_singleton]
        rcases mem_snoc_elim hr with h3 | h3
        · exact Nat.lt_succ_of_lt (ih.runIdxLt i2 k r h3)
        · simp at h3
      · intro i2 e2 todo hp
        have hp2 : LoopPhase.handling i e (List.range (subs e.event_type).length) =
            LoopPhase.handling i2 e2 todo := hp
        injection hp2 with hi2 he2 ht2
        subst hi2
        subst he2
        subst ht2
        refine ⟨?_, ?_, ?_, ?_⟩
        · rw [hD]
          simp only [List.length_append, List.length_singleton]
          rw [hiD]
        · rw [hD, hiD]
          exact List.get?_concat_length _ _
        · intro k hk
          exact List.mem_range.mp hk
        · intro k hk
          exact Or.inl (List.mem_range.mpr hk)
      · intro i2 e2 hd hg
        rw [hD] at hd
        rcases get?_snoc_cases hd with h3 | ⟨h3, h4⟩
        · refine ranAll_mono _ (ih.doneRan i2 e2 h3 ?_)
          intro e3 todo
          rw [h1]
          simp
        · injection h4 with h5 h6
          injection h6 with h7
          refine absurd ?_ (hg e2 (List.range (subs e2.event_type).length))
          rw [h5, h7]
      · intro p i2 k r hr
        rcases get?_snoc_cases hr with h3 | ⟨h3, h4⟩
        · obtain ⟨e2, hd, hres⟩ := ih.runResult p i2 k r h3
          exact ⟨e2, by rw [hD]; exact get?_snoc_of_some hd, hres⟩
        · simp at h4
      · intro hr
        obtain ⟨j, hj⟩ := ih.runningStop hr
        exact ⟨j, List.mem_append_left _ hj⟩
      · intro hp
        simp at hp
    | deqS i rest h1 h2 =>
      have hE : enqs (tr ++ [Lab.deqStop i]) = enqs tr := by
        rw [enqs_snoc]; simp [enqItem]
      have hD : deqs (tr ++ [Lab.deqStop i]) = deqs tr ++ [(i, none)] := by
        rw [deqs_snoc]; rfl
      have hq := ih.queueRest
      rw [h2] at hq
      have hgetE : (enqs tr).get? (deqs tr).length = some (i, none) := by
        have h3 : (List.drop (deqs tr).length (enqs tr)).get? 0 =
            (enqs tr).get? ((deqs tr).length + 0) := List.get?_drop _ _ _
        rw [← hq] at h3
        simpa using h3.symm
      have hDlt : (deqs tr).length < (enqs tr).length := get?_some_lt hgetE
      have hrest : rest = (enqs tr).drop ((deqs tr).length + 1) := by
        have h4 := congrArg (List.drop 1) hq
        rw [List.drop_drop] at h4
        simpa using h4
      constructor
      · intro p x hx
        rw [hE] at hx
        exact ih.idxSeq p x hx
      · rw [hE]
        exact ih.enqLen
      · rw [hD, hE]
        simp only [List.length_append, List.length_singleton]
        rw [List.take_succ, ← List.get?_eq_getElem?, hgetE, ← ih.deqTake]
        simp
      · show rest = _
        rw [hD, hE]
        simp only [List.length_append, List.length_singleton]
        exact hrest
      · intro i2 k r hr
        rw [hD]
        simp only [List.length_append, List.length_singleton]
        rcases mem_snoc_elim hr with h3 | h3
        · exact Nat.lt_succ_of_lt (ih.runIdxLt i2 k r h3)
        · simp at h3
      · intro i2 e2 todo hp
        simp at hp
      · intro i2 e2 hd hg
        rw [hD] at hd
        rcases get?_snoc_cases hd with h3 | ⟨h3, h4⟩
        · refine ranAll_mono _ (ih.doneRan i2 e2 h3 ?_)
          intro e3 todo
          rw [h1]
          simp
        · injection h4 with h5 h6
          simp at h6
      · intro p i2 k r hr
        rcases get?_snoc_cases hr with h3 | ⟨h3, h4⟩
        · obtain ⟨e2, hd, hres⟩ := ih.runResult p i2 k r h3
          exact ⟨e2, by rw [hD]; exact get?_snoc_of_some hd, hres⟩
        · simp at h4
      · intro hr
        obtain ⟨j, hj⟩ := ih.runningStop hr
        exact ⟨j, List.mem_append_left _ hj⟩
      · intro _
        have hmem : (i, (none : Option Event)) ∈ enqs tr :=
          List.get?_mem hgetE
        exact ⟨i, List.mem_append_left _ (stopCall_of_enqs_none hmem)⟩
    | runCb i e todo k h1 hk =>
      have hE : enqs (tr ++ [Lab.run i k (runCallback subs e k)]) = enqs tr := by
        rw [enqs_snoc]; simp [enqItem]
      have hD : deqs (tr ++ [Lab.run i k (runCallback subs e k)]) = deqs tr := by
        rw [deqs_snoc]; simp [deqItem]
      obtain ⟨c1, c2, c3, c4⟩ := ih.handlingCur i e todo h1
      constructor
      · intro p x hx
        rw [hE] at hx
        exact ih.idxSeq p x hx
      · rw [hE]
        exact ih.enqLen
      · rw [hD, hE]
        exact ih.deqTake
      · show s.queue = _
        rw [hD, hE]
        exact ih.queueRest
      · intro i2 k2 r hr
        rw [hD]
        rcases mem_snoc_elim hr with h3 | h3
        · exact ih.runIdxLt i2 k2 r h3
        · injection h3 with hi2 hk2 hr2
          subst hi2
          omega
      · intro i2 e2 todo2 hp
        have hp2 : LoopPhase.handling i e (todo.erase k) =
            LoopPhase.handling i2 e2 todo2 := hp
        injection hp2 with hi2 he2 ht2
        subst hi2
        subst he2
        subst ht2
        refine ⟨by rw [hD]; exact c1, by rw [hD]; exact c2, ?_, ?_⟩
        · intro k2 hk2
          exact c3 k2 (List.mem_of_mem_erase hk2)
        · intro k2 hk2
          rcases c4 k2 hk2 with h3 | ⟨p, r, hp3⟩
          · by_cases hkk : k2 = k
            · refine Or.inr ⟨tr.length, runCallback subs e k, ?_⟩
              rw [hkk]
              exact List.get?_concat_length _ _
            · exact Or.inl ((List.mem_erase_of_ne hkk).mpr h3)
          · exact Or.inr ⟨p, r, get?_snoc_of_some hp3⟩
      · intro i2 e2 hd hg
        rw [hD] at hd
        by_cases hii : i2 = i
        · subst hii
          exact absurd rfl (hg e (todo.erase k))
        · refine ranAll_mono _ (ih.doneRan i2 e2 hd ?_)
          intro e3 todo2 hc
          rw [h1] at hc
          injection hc with hi2 _ _
          exact hii hi2.symm
      · intro p i2 k2 r hr
        rcases get?_snoc_cases hr with h3 | ⟨h3, h4⟩
        · obtain ⟨e2, hd, hres⟩ := ih.runResult p i2 k2 r h3
          exact ⟨e2, by rw [hD]; exact hd, hres⟩
        · injection h4 with hi2 hk2 hr2
          subst hi2
          subst hk2
          subst hr2
          exact ⟨e, by rw [hD]; exact c2, rfl⟩
      · intro hr
        obtain ⟨j, hj⟩ := ih.runningStop hr
        exact ⟨j, List.mem_append_left _ hj⟩
      · intro hp
        simp at hp
    | finB i e h1 =>
      have hE : enqs (tr ++ [Lab.fin i]) = enqs tr := by
        rw [enqs_snoc]; simp [enqItem]
      have hD : deqs (tr ++ [Lab.fin i]) = deqs tr := by
        rw [deqs_snoc]; simp [deqItem]
      obtain ⟨c1, c2, c3, c4⟩ := ih.handlingCur i e [] h1
      constructor
      · intro p x hx
        rw [hE] at hx
        exact ih.idxSeq p x hx
      · rw [hE]
        exact ih.enqLen
      · rw [hD, hE]
        exact ih.deqTake
      · show s.queue = _
        rw [hD, hE]
        exact ih.queueRest
      · intro i2 k2 r hr
        rw [hD]
        rcases mem_snoc_elim hr with h3 | h3
        · exact ih.runIdxLt i2 k2 r h3
        · simp at h3
      · intro i2 e2 todo2 hp
        simp at hp
      · intro i2 e2 hd hg
        rw [hD] at hd
        by_cases hii : i2 = i
        · subst hii
          rw [c2] at hd
          injection hd with hd2
          injection hd2 with _ hd3
          injection hd3 with hd4
          intro k2 hk2
          rw [← hd4] at hk2
          rcases c4 k2 hk2 with h3 | ⟨p, r, hp3⟩
          · exact absurd h3 (List.not_mem_nil _)
          · exact ⟨p, r, get?_snoc_of_some hp3⟩
        · refine ranAll_mono _ (ih.doneRan i2 e2 hd ?_)
          intro e3 todo2 hc
          rw [h1] at hc
          injection hc with hi2 _ _
          exact hii hi2.symm
      · intro p i2 k2 r hr
        rcases get?_snoc_cases hr with h3 | ⟨h3, h4⟩
        · obtain ⟨e2, hd, hres⟩ := ih.runResult p i2 k2 r h3
          exact ⟨e2, by rw [hD]; exact hd, hres⟩
        · simp at h4
      · intro hr
        obtain ⟨j, hj⟩ := ih.runningStop hr
        exact ⟨j, List.mem_append_left _ hj⟩
      · intro hp
        simp at hp

/-- C1: the dispatch loop consumes published events one at a time in
global FIFO arrival order (the dequeue sequence of every execution is a
prefix of the arrival sequence), and dispatch is batched: whenever a
callback of a later-published event runs, every subscriber callback of
every earlier-published event has already completed at an earlier trace
position. -/
theorem dispatch_fifo_batched (subs : EventType → List Cb)
    (tr : List Lab) (s : EMState) (hx : EMExec subs tr s) :
    deqs tr = (enqs tr).take (deqs tr).length ∧
    (∀ p2 j k2 r2, tr.get? p2 = some (.run j k2 r2) →
      ∀ i e, (Lab.pub i e) ∈ tr → i < j →
        ∀ k, k < (subs e.event_type).length →
          ∃ p1, p1 < p2 ∧ ∃ r1, tr.get? p1 = some (.run i k r1)) := by
  refine ⟨(emInv hx).deqTake, ?_⟩
  induction hx with
  | init =>
    intro p2 j k2 r2 hp2
    simp at hp2
  | @snoc tr s l s' hexec hstep ih =>
    intro p2 j k2 r2 hp2 i e hpub hij k hk
    have inv := emInv hexec
    rcases get?_snoc_cases hp2 with hcase | ⟨hplen, hlab⟩
    · have hpub2 : Lab.pub i e ∈ tr := by
        rcases mem_snoc_elim hpub with h2 | h2
        · exact h2
        · exfalso
          have hjlt : j < (deqs tr).length :=
            inv.runIdxLt j k2 r2 (List.get?_mem hcase)
          cases hstep with
          | pub e0 =>
            injection h2 with h3 h4
            have : i = (enqs tr).length := by rw [h3, ← inv.enqLen]
            have h5 : j < i := by
              rw [this]
              exact lt_of_lt_of_le hjlt inv.deqLenLe
            omega
          | stop hrun => simp at h2
          | exitW h1a h2a => simp at h2
          | enter h1a h2a => simp at h2
          | deqE i0 e0 rest h1a h2a => simp at h2
          | deqS i0 rest h1a h2a => simp at h2
          | runCb i0 e0 todo0 k0 h1a hk0 => simp at h2
          | finB i0 e0 h1a => simp at h2
      obtain ⟨p1, hlt, r1, hp1⟩ := ih p2 j k2 r2 hcase i e hpub2 hij k hk
      exact ⟨p1, hlt, r1, get?_snoc_of_some hp1⟩
    · cases hstep with
      | pub e0 => simp at hlab
      | stop hrun => simp at hlab
      | exitW h1a h2a => simp at hlab
      | enter h1a h2a => simp at hlab
      | deqE i0 e0 rest h1a h2a => simp at hlab
      | deqS i0 rest h1a h2a => simp at hlab
      | finB i0 e0 h1a => simp at hlab
      | runCb i0 e0 todo0 k0 h1a hk0 =>
        have hji : j = i0 := by
          injection hlab with h3 h4 h5
        obtain ⟨c1, c2, c3, c4⟩ := inv.handlingCur i0 e0 todo0 h1a
        have hpub2 : Lab.pub i e ∈ tr := by
          rcases mem_snoc_elim hpub with h2 | h2
          · exact h2
          · simp at h2
        have hmemE : (i, some e) ∈ enqs tr :=
          List.mem_filterMap.mpr ⟨Lab.pub i e, hpub2, rfl⟩
        obtain ⟨p0, hp0⟩ := List.get?_of_mem hmemE
        have hpi : p0 = i := (inv.idxSeq p0 (i, some e) hp0).symm
        rw [hpi] at hp0
        have hiD : i < (deqs tr).length := by
          rw [hji] at hij
          omega
        have hdeq0 : (deqs tr).get? i = some (i, some e) := by
          rw [inv.deqTake, List.get?_take hiD]
          exact hp0
        have hguard : ∀ e3 todo3, s.phase ≠ .handling i e3 todo3 := by
          intro e3 todo3 hc
          rw [h1a] at hc
          injection hc with h6 _ _
          rw [hji] at hij
          omega
        obtain ⟨p1, r1, hp1⟩ := inv.doneRan i e hdeq0 hguard k hk
        refine ⟨p1, ?_, r1, get?_snoc_of_some hp1⟩
        rw [hplen]
        exact get?_some_lt hp1

theorem c1exec : EMExec subsOne c1trace c1state := by
  have h0 : EMExec subsOne [] initEM := .init
  have h1 := EMExec.snoc h0 (EMStep.pub initEM ev0)
  have h2 := EMExec.snoc h1 (EMStep.pub _ ev1)
  have h3 := EMExec.snoc h2 (EMStep.enter _ rfl rfl)
  have h4 := EMExec.snoc h3 (EMStep.deqE _ 0 ev0 [(1, some ev1)] rfl rfl)
  have h5 := EMExec.snoc h4 (EMStep.runCb _ 0 ev0 _ 0 rfl (by decide))
  have h6 := EMExec.snoc h5 (EMStep.finB _ 0 ev0 rfl)
  have h7 := EMExec.snoc h6 (EMStep.enter _ rfl rfl)
  have h8 := EMExec.snoc h7 (EMStep.deqE _ 1 ev1 [] rfl rfl)
  have h9 := EMExec.snoc h8 (EMStep.runCb _ 1 ev1 _ 0 rfl (by decide))
  exact h9

theorem c1_witness :
    EMExec subsOne c1trace c1state ∧
    (deqs c1trace = (enqs c1trace).take (deqs c1trace).length ∧
      (∀ p2 j k2 r2, c1trace.get? p2 = some (.run j k2 r2) →
        ∀ i e, (Lab.pub i e) ∈ c1trace → i < j →
          ∀ k, k < (subsOne e.event_type).length →
            ∃ p1, p1 < p2 ∧ ∃ r1, c1trace.get? p1 = some (.run i k r1))) :=
  ⟨c1exec, dispatch_fifo_batched subsOne c1trace c1state c1exec⟩

theorem drain_batch (subs : EventType → List Cb) {tr : List Lab} {s : EMState}
    {i : Nat} {e : Event} (todo : List Nat) (hx : EMExec subs tr s)
    (hphase : s.phase = .handling i e todo) :
    ∃ tr2, EMExec subs (tr ++ tr2) ⟨s.queue, s.nextIdx, s.running, .check⟩ ∧
      (Lab.fin i) ∈ tr2 := by
  induction todo generalizing tr s with
  | nil =>
    refine ⟨[.fin i], ?_, by simp⟩
    exact EMExec.snoc hx (EMStep.finB s i e hphase)
  | cons k rest ih =>
    have hstep := @EMStep.runCb subs s i e (k :: rest) k hphase (List.mem_cons_self _ _)
    have hx2 := EMExec.snoc hx hstep
    have hphase2 : (⟨s.queue, s.nextIdx, s.running,
        .handling i e ((k :: rest).erase k)⟩ : EMState).phase = .handling i e rest := by
      simp [List.erase_cons_head]
    obtain ⟨tr2, hexec2, hfin⟩ := ih hx2 hphase2
    refine ⟨[Lab.run i k (runCallback subs e k)] ++ tr2, ?_,
      List.mem_append_right _ hfin⟩
    rw [← List.append_assoc]
    exact hexec2

/-- C2: with subscribers A and B registered for the kind of E and A
raising on E, fault isolation holds: in every execution the loop has
already run B on E (B receives E) before it dequeues the event published
after E, and there is an execution in which A fails with its exception
captured as a gather result, B still receives E, the batch of E completes
(the exception does not propagate out of the dispatch of E), and the next
published event is dequeued and its batch completes as well. -/
theorem callback_fault_isolation (subs : EventType → List Cb)
    (A B : Cb) (E E2 : Event) (msg : String)
    (hsubs : subs E.event_type = [A, B]) (hA : A E = .error msg) :
    (∀ tr s p, EMExec subs tr s → (Lab.pub 0 E) ∈ tr →
        tr.get? p = some (.deq 1 E2) →
        ∃ p1, p1 < p ∧ tr.get? p1 = some (.run 0 1 (B E))) ∧
    (∃ tr s, EMExec subs tr s ∧
        (Lab.run 0 0 (Except.error msg)) ∈ tr ∧ (Lab.run 0 1 (B E)) ∈ tr ∧
        (Lab.fin 0) ∈ tr ∧ (Lab.deq 1 E2) ∈ tr ∧ (Lab.fin 1) ∈ tr) := by
  constructor
  · intro tr s p hx hpub hdeq
    induction hx with
    | init => simp at hdeq
    | @snoc tr s l s' hexec hstep ih =>
      have inv := emInv hexec
      rcases get?_snoc_cases hdeq with hcase | ⟨hplen, hlab⟩
      · have hpub2 : Lab.pub 0 E ∈ tr := by
          rcases mem_snoc_elim hpub with h2 | h2
          · exact h2
          · exfalso
            have hmemD : ((1 : Nat), some E2) ∈ deqs tr :=
              List.mem_filterMap.mpr ⟨Lab.deq 1 E2, List.get?_mem hcase, rfl⟩
            cases hstep with
            | pub e0 =>
              injection h2 with h3 h4
              have h5 : (enqs tr).length = 0 := by rw [inv.enqLen, ← h3]
              have h6 : (deqs tr).length = 0 := by
                have := inv.deqLenLe
                omega
              rw [List.length_eq_zero] at h6
              rw [h6] at hmemD
              exact List.not_mem_nil _ hmemD
            | stop hrun => simp at h2
            | exitW h1a h2a => simp at h2
            | enter h1a h2a => simp at h2
            | deqE i0 e0 rest h1a h2a => simp at h2
            | deqS i0 rest h1a h2a => simp at h2
            | runCb i0 e0 todo0 k0 h1a hk0 => simp at h2
            | finB i0 e0 h1a => simp at h2
        obtain ⟨p1, hlt, hp1⟩ := ih hpub2 hcase
        exact ⟨p1, hlt, get?_snoc_of_some hp1⟩
      · cases hstep with
        | pub e0 => simp at hlab
        | stop hrun => simp at hlab
        | exitW h1a h2a => simp at hlab
        | enter h1a h2a => simp at hlab
        | deqS i0 rest h1a h2a => simp at hlab
        | runCb i0 e0 todo0 k0 h1a hk0 => simp at hlab
        | finB i0 e0 h1a => simp at hlab
        | deqE i0 e0 rest h1a h2a =>
          have hi0 : i0 = 1 ∧ e0 = E2 := by
            injection hlab with h3 h4
            exact ⟨h3.symm, h4.symm⟩
          have hq := inv.queueRest
          rw [h2a] at hq
          have hgetE : (enqs tr).get? (deqs tr).length = some (i0, some e0) := by
            have h3 : (List.drop (deqs tr).length (enqs tr)).get? 0 =
                (enqs tr).get? ((deqs tr).length + 0) := List.get?_drop _ _ _
            rw [← hq] at h3
            simpa using h3.symm
          have hiD : i0 = (deqs tr).length := by
            have := inv.idxSeq (deqs tr).length (i0, some e0) hgetE
            simpa using this
          have hD1 : (deqs tr).length = 1 := by rw [← hiD, hi0.1]
          have hpub2 : Lab.pub 0 E ∈ tr := by
            rcases mem_snoc_elim hpub with h2 | h2
            · exact h2
            · simp at h2
          have hmemE : ((0 : Nat), some E) ∈ enqs tr :=
            List.mem_filterMap.mpr ⟨Lab.pub 0 E, hpub2, rfl⟩
          obtain ⟨p0, hp0⟩ := List.get?_of_mem hmemE
          have hpi : p0 = 0 := (inv.idxSeq p0 (0, some E) hp0).symm
          rw [hpi] at hp0
          have hdeq0 : (deqs tr).get? 0 = some (0, some E) := by
            rw [inv.deqTake, List.get?_take (by omega)]
            exact hp0
          have hguard : ∀ e3 todo3, s.phase ≠ .handling 0 e3 todo3 := by
            intro e3 todo3 hc
            rw [h1a] at hc
            exact LoopPhase.noConfusion hc
          have hklt : 1 < (subs E.event_type).length := by
            rw [hsubs]
            simp
          obtain ⟨p1, r1, hp1⟩ := inv.doneRan 0 E hdeq0 hguard 1 hklt
          obtain ⟨e4, hd4, hres4⟩ := inv.runResult p1 0 1 r1 hp1
          have he4 : e4 = E := by
            rw [hdeq0] at hd4
            injection hd4 with h6
            injection h6 with _ h7
            injection h7 with h8
            exact h8.symm
          have hr1 : r1 = B E := by
            rw [hres4, he4]
            simp [runCallback, hsubs]
          refine ⟨p1, ?_, ?_⟩
          · rw [hplen]
            exact get?_some_lt hp1
          · rw [← hr1]
            exact get?_snoc_of_some hp1
  · have hr0 : runCallback subs E 0 = Except.error msg := by
      simp [runCallback, hsubs, hA]
    have hr1 : runCallback subs E 1 = B E := by
      simp [runCallback, hsubs]
    have x0 : EMExec subs [] initEM := .init
    have x1 := EMExec.snoc x0 (EMStep.pub initEM E)
    have x2 := EMExec.snoc x1 (EMStep.pub _ E2)
    have x3 := EMExec.snoc x2 (EMStep.enter _ rfl rfl)
    have x4 := EMExec.snoc x3 (EMStep.deqE _ 0 E [(1, some E2)] rfl rfl)
    have x5 := EMExec.snoc x4 (EMStep.runCb _ 0 E
      (List.range (subs E.event_type).length) 0 rfl (by rw [hsubs]; simp))
    have x6 := EMExec.snoc x5 (EMStep.runCb _ 0 E
      ((List.range (subs E.event_type).length).erase 0) 1 rfl (by rw [hsubs]; simp))
    have x7 := EMExec.snoc x6 (EMStep.finB _ 0 E (by rw [hsubs]; rfl))
    have x8 := EMExec.snoc x7 (EMStep.enter _ rfl rfl)
    have x9 := EMExec.snoc x8 (EMStep.deqE _ 1 E2 [] rfl rfl)
    obtain ⟨tr2, xfinal, hfin1⟩ :=
      drain_batch subs (List.range (subs E2.event_type).length) x9 rfl
    refine ⟨_, _, xfinal, ?_, ?_, ?_, ?_, List.mem_append_right _ hfin1⟩
    · rw [← hr0]
      simp
    · rw [← hr1]
      simp
    · simp
    · simp

theorem c2_witness :
    (subsAB ev0.event_type = [cbBoom, cbOk] ∧ cbBoom ev0 = Except.error "boom") ∧
    ((∀ tr s p, EMExec subsAB tr s → (Lab.pub 0 ev0) ∈ tr →
        tr.get? p = some (.deq 1 ev1) →
        ∃ p1, p1 < p ∧ tr.get? p1 = some (.run 0 1 (cbOk ev0))) ∧
      (∃ tr s, EMExec subsAB tr s ∧
        (Lab.run 0 0 (Except.error "boom")) ∈ tr ∧
        (Lab.run 0 1 (cbOk ev0)) ∈ tr ∧
        (Lab.fin 0) ∈ tr ∧ (Lab.deq 1 ev1) ∈ tr ∧ (Lab.fin 1) ∈ tr)) :=
  ⟨⟨rfl, rfl⟩,
    callback_fault_isolation subsAB cbBoom cbOk ev0 ev1 "boom" rfl rfl⟩

/-- C7 (amended): nothing other than stop() ends the dispatch loop: every
execution that reaches the exited loop state contains a stop() call in
its trace, because the loop leaves only through the while check observing
the _running flag that stop() cleared, or through dequeuing the None
sentinel that stop() enqueued; in particular no callback exception
terminates the loop.  The draining half of the original claim fails:
stop() clears _running before enqueueing the sentinel, so events still
queued when stop() runs can be dropped at the while check, see the
counterexample. -/
theorem loop_exit_only_via_stop (subs : EventType → List Cb)
    (tr : List Lab) (s : EMState) (hx : EMExec subs tr s)
    (hstop : s.phase = .stopped) :
    ∃ i, (Lab.stopCall i) ∈ tr :=
  (emInv hx).stoppedStop hstop

theorem c7_witness :
    EMExec subsOne [Lab.stopCall 0, Lab.exitWhile]
      ⟨[(0, none)], 1, false, .stopped⟩ ∧
    (∃ i, (Lab.stopCall i) ∈ [Lab.stopCall 0, Lab.exitWhile]) := by
  have h0 : EMExec subsOne [] initEM := .init
  have h1 := EMExec.snoc h0 (EMStep.stop initEM rfl)
  have h2 := EMExec.snoc h1 (EMStep.exitW _ rfl rfl)
  exact ⟨h2, loop_exit_only_via_stop subsOne _ _ h2 rfl⟩

/-- C7 counterexample: an execution in which an event is published, then
stop() runs before the loop task has dequeued anything, and the loop
observes the cleared _running flag at its while check and exits: the
published event is still in the queue, was never dequeued, and its
subscriber was never invoked, refuting the claim that every event
published before stop() is dequeued and dispatched before the loop
exits. -/
theorem c7_counterexample :
    EMExec subsOne [Lab.pub 0 ev0, Lab.stopCall 1, Lab.exitWhile]
      ⟨[(0, some ev0), (1, none)], 2, false, .stopped⟩ ∧
    (⟨[(0, some ev0), (1, none)], 2, false, .stopped⟩ : EMState).phase = .stopped ∧
    (0, some ev0) ∈
      (⟨[(0, some ev0), (1, none)], 2, false, .stopped⟩ : EMState).queue ∧
    (Lab.deq 0 ev0) ∉ [Lab.pub 0 ev0, Lab.stopCall 1, Lab.exitWhile] ∧
    (Lab.run 0 0 (Except.ok ())) ∉ [Lab.pub 0 ev0, Lab.stopCall 1, Lab.exitWhile] := by
  refine ⟨?_, rfl, by decide, by decide, by decide⟩
  have h0 : EMExec subsOne [] initEM := .init
  have h1 := EMExec.snoc h0 (EMStep.pub initEM ev0)
  have h2 := EMExec.snoc h1 (EMStep.stop _ rfl)
  exact EMExec.snoc h2 (EMStep.exitW _ rfl rfl)
